import Mathlib

/-!
Shallow embedding of `src/EDGARSCRAPER_balancesheet.py`: the date
canonicalizer (`parse_date_label`), the table segmenter
(`extract_line_items_with_sections`), the section reclassifier
(`adjust_line_section`) and the master merger
(`merge_statements_into_master`), together with proofs of the spec's
claims about them.  Python strings are `String` (lists of characters),
tables are lists of rows of strings, dictionaries are association lists
with insert-keeps-position / overwrite semantics, and calendar dates are
`Date` records with a day-number function for distances and ordering.
-/

namespace EdgarBS

/-! ## Python string primitives -/

/-- Characters of `s.strip()`: whitespace removed from both ends. -/
def pyStripChars (l : List Char) : List Char :=
  ((l.dropWhile Char.isWhitespace).reverse.dropWhile Char.isWhitespace).reverse

/-- Python `s.strip()`. -/
def pyStrip (s : String) : String := ⟨pyStripChars s.data⟩

/-- Python `s.lower()` (ASCII case fold, which is all the source compares). -/
def pyLower (s : String) : String := ⟨s.data.map Char.toLower⟩

/-- `charsStart need hay`: the list `need` is an initial segment of `hay`. -/
def charsStart : List Char → List Char → Bool
  | [], _ => true
  | _ :: _, [] => false
  | a :: as, b :: bs => a == b && charsStart as bs

/-- `charsHas need hay`: the list `need` occurs contiguously inside `hay`
(Python's `need in hay` on strings). -/
def charsHas (need : List Char) : List Char → Bool
  | [] => need.isEmpty
  | b :: bs => charsStart need (b :: bs) || charsHas need bs

/-- Python `need in hay` for strings. -/
def strContains (hay need : String) : Bool := charsHas need.data hay.data

/-- Python `hay.startswith(need)`. -/
def strStarts (hay need : String) : Bool := charsStart need.data hay.data

/-- Python `s.endswith(":")`: the last character is a colon. -/
def lastIsColon (l : List Char) : Bool :=
  match l.getLast? with
  | some c => c == ':'
  | none => false

/-- Characters of Python `s.rstrip(":")`: every trailing colon removed. -/
def rstripColonChars (l : List Char) : List Char :=
  (l.reverse.dropWhile (fun c => c == ':')).reverse

/-! ## Calendar dates (`datetime.datetime` restricted to dates) -/

structure Date where
  y : Nat
  m : Nat
  d : Nat
  deriving DecidableEq, Repr

def isLeap (y : Nat) : Bool :=
  y % 4 == 0 && (y % 100 != 0 || y % 400 == 0)

def daysInMonth (y m : Nat) : Nat :=
  if m == 2 then (if isLeap y then 29 else 28)
  else if m == 4 || m == 6 || m == 9 || m == 11 then 30
  else 31

/-- The dates `datetime.datetime` accepts: year 1..9999, a real calendar day. -/
def dateOk (y m d : Nat) : Bool :=
  decide (1 ≤ y ∧ y ≤ 9999 ∧ 1 ≤ m ∧ m ≤ 12 ∧ 1 ≤ d ∧ d ≤ daysInMonth y m)

/-- Day number of a calendar date (civil-from-days formula, March-based year).
Subtraction of a datetime from a datetime in the source yields exactly the
difference of these day numbers. -/
def toDays (dt : Date) : Nat :=
  let mp := (dt.m + 9) % 12
  let yp := dt.y - mp / 10
  365 * yp + yp / 4 + yp / 400 + (mp * 306 + 5) / 10 + (dt.d - 1) - yp / 100

/-- Absolute difference of two day numbers: `abs((a - b).days)`. -/
def natDist (a b : Nat) : Nat := max a b - min a b

def digitCharAux : Nat → Char
  | 0 => '0' | 1 => '1' | 2 => '2' | 3 => '3' | 4 => '4'
  | 5 => '5' | 6 => '6' | 7 => '7' | 8 => '8' | _ => '9'

/-- The decimal digit character of `n % 10`. -/
def digitChar (n : Nat) : Char := digitCharAux (n % 10)

/-- Numeric value of a digit character. -/
def digitVal (c : Char) : Nat := c.toNat - 48

/-- `dt.strftime("%Y-%m-%d")`: the zero-padded ISO form of a date. -/
def isoFormat (dt : Date) : String :=
  ⟨[digitChar (dt.y / 1000), digitChar (dt.y / 100), digitChar (dt.y / 10), digitChar dt.y,
    '-', digitChar (dt.m / 10), digitChar dt.m, '-', digitChar (dt.d / 10), digitChar dt.d]⟩

/-- `datetime.datetime.strptime(s, "%Y-%m-%d")`, on the zero-padded shape
`YYYY-MM-DD` (the only shape the pipeline feeds it: canonical labels are
emitted by `strftime("%Y-%m-%d")`, and a degraded label that is not of this
shape fails the fuzzy parser, hence also `strptime`).  Returns `none` where
the source raises `ValueError`. -/
def strptimeIso (s : String) : Option Date :=
  match s.data with
  | [y1, y2, y3, y4, h1, m1, m2, h2, d1, d2] =>
    if h1 == '-' && h2 == '-' && y1.isDigit && y2.isDigit && y3.isDigit && y4.isDigit
        && m1.isDigit && m2.isDigit && d1.isDigit && d2.isDigit then
      let y := ((digitVal y1 * 10 + digitVal y2) * 10 + digitVal y3) * 10 + digitVal y4
      let m := digitVal m1 * 10 + digitVal m2
      let d := digitVal d1 * 10 + digitVal d2
      if dateOk y m d then some ⟨y, m, d⟩ else none
    else none
  | _ => none

/-! ## Date canonicalizer: `parse_date_label` -/

/-- Helper for `stripParens`: drop everything up to and including the first
`)` of the list, or `none` when no `)` remains (then the regex does not
match the opening parenthesis). -/
def dropClose : List Char → Option (List Char)
  | [] => none
  | c :: rest => if c == ')' then some rest else dropClose rest

/-- Fuelled worker for `stripParens`; the fuel only serves structural
recursion and never runs out when it starts at the list's length. -/
def stripParensF : Nat → List Char → List Char
  | 0, l => l
  | _ + 1, [] => []
  | fuel + 1, c :: rest =>
    if c == '(' then
      match dropClose rest with
      | some rest' => stripParensF fuel rest'
      | none => c :: stripParensF fuel rest
    else c :: stripParensF fuel rest

/-- `re.sub(r"\(.*?\)", "", _)`: every leftmost, shortest parenthesized group
removed; an unmatched `(` stays. -/
def stripParens (l : List Char) : List Char := stripParensF l.length l

/-- A `\w` character of the regex (ASCII scope). -/
def wordChar (c : Char) : Bool := c.isAlphanum || c == '_'

/-- Helper for `stripDots`, carrying the previous character of the original
list: a dot directly after a word character is dropped. -/
def stripDotsAux : Option Char → List Char → List Char
  | _, [] => []
  | prev, c :: rest =>
    if c == '.' && (match prev with | some p => wordChar p | none => false) then
      stripDotsAux (some c) rest
    else c :: stripDotsAux (some c) rest

/-- `re.sub(r"\b(\w+)\.", r"\1", _)`: every period that directly follows a
word character removed (one per word token, applied globally). -/
def stripDots (l : List Char) : List Char := stripDotsAux none l

/-- Token split on blanks and commas, empty tokens dropped. -/
def splitToksAux : List Char → List Char → List (List Char)
  | cur, [] => if cur.isEmpty then [] else [cur.reverse]
  | cur, c :: rest =>
    if c == ' ' || c == ',' then
      if cur.isEmpty then splitToksAux [] rest else cur.reverse :: splitToksAux [] rest
    else splitToksAux (c :: cur) rest

def splitToks (l : List Char) : List (List Char) := splitToksAux [] l

/-- Month number of a lowercased month token (three-letter abbreviation or
full English name). -/
def monthNum (t : List Char) : Option Nat :=
  if t == "jan".data || t == "january".data then some 1
  else if t == "feb".data || t == "february".data then some 2
  else if t == "mar".data || t == "march".data then some 3
  else if t == "apr".data || t == "april".data then some 4
  else if t == "may".data then some 5
  else if t == "jun".data || t == "june".data then some 6
  else if t == "jul".data || t == "july".data then some 7
  else if t == "aug".data || t == "august".data then some 8
  else if t == "sep".data || t == "september".data then some 9
  else if t == "oct".data || t == "october".data then some 10
  else if t == "nov".data || t == "november".data then some 11
  else if t == "dec".data || t == "december".data then some 12
  else none

/-- Numeric value of an all-digit token. -/
def natFromDigits (t : List Char) : Option Nat :=
  if t.isEmpty then none
  else if t.all Char.isDigit then some (t.foldl (fun a c => a * 10 + digitVal c) 0)
  else none

/-- Modelled from the spec: the fuzzy natural-language date parser the source
calls (`dateutil.parser.parse(..., fuzzy=True)`) is an external library, not
code of this repository.  Following the spec's words — a parser "tolerant of
extra words, multiple common month/day/year orderings" — it is modelled as
accepting the ISO `YYYY-MM-DD` shape and the `Month D, YYYY` /
`D Month YYYY` month-name shapes, and failing on anything else.  Every
string the model accepts the real parser accepts too. -/
def fuzzyParse (s : String) : Option Date :=
  match strptimeIso s with
  | some dt => some dt
  | none =>
    match splitToks s.data with
    | [t1, t2, t3] =>
      match monthNum (t1.map Char.toLower), natFromDigits t2, natFromDigits t3 with
      | some m, some d, some y =>
        if dateOk y m d then some ⟨y, m, d⟩ else none
      | _, _, _ =>
        match natFromDigits t1, monthNum (t2.map Char.toLower), natFromDigits t3 with
        | some d, some m, some y => if dateOk y m d then some ⟨y, m, d⟩ else none
        | _, _, _ => none
    | _ => none

/-- `parse_date_label`: strip every parenthesized group, trim, strip
abbreviation dots, then fuzzy-parse; the ISO form of the parsed date on
success, the stripped-but-unparsed text on failure. -/
def parse_date_label (dlabel : String) : String :=
  let base : String := ⟨stripDots (pyStripChars (stripParens dlabel.data))⟩
  match fuzzyParse base with
  | some dt => isoFormat dt
  | none => base

/-! ## Segmenter output rows

A `Row` mirrors the dict the source builds:
`{"type": "section" | "line", "section_name", "line_label", "date_values"}`,
with `date_values` the insertion-ordered association list of a Python dict. -/

structure Row where
  type : String
  section_name : String
  line_label : String
  date_values : List (String × String)
  deriving DecidableEq, Repr

/-! ## Section reclassifier: `adjust_line_section` -/

/-- `adjust_line_section`: overrides a line row's section by label text,
first match wins; section rows are returned unchanged. -/
def adjust_line_section (row : Row) : String :=
  if row.type ≠ "line" then row.section_name
  else
    let line_lower := pyLower row.line_label
    if strContains line_lower "accounts payable" = true ∨
        strContains line_lower "accrued and other current liabilities" = true then
      "Current liabilities"
    else if strStarts line_lower "common stock, $0.01 par value" = true then
      "Post-Statement"
    else row.section_name

/-! ## Table segmenter: `extract_line_items_with_sections`

A raw table is a list of rows of cell strings.  `pandas.DataFrame(rows)`
rectangularizes a ragged table, so each accessed row is padded to the
table's column count; the padding cell is blank (`None` in pandas — blank
and `None` cells behave identically in every test the segmenter makes). -/

def ncols (df : List (List String)) : Nat :=
  df.foldr (fun r a => max r.length a) 0

def padTo (n : Nat) (r : List String) : List String :=
  r ++ List.replicate (n - r.length) ""

def paddedRows (df : List (List String)) : List (List String) :=
  (df.map (padTo (ncols df)))

/-- One cell of `re.search(r"(20\d{2}|19\d{2}|Dec|Mar|Sep|Jun|Feb|Jan|Jul|Aug|Nov|Oct|Apr|May)", x, re.IGNORECASE)`:
does a four-character year `19??`/`20??` start here? -/
def yearAt : List Char → Bool
  | a :: b :: c :: d :: _ =>
    ((a == '1' && b == '9') || (a == '2' && b == '0')) && c.isDigit && d.isDigit
  | _ => false

def hasYear : List Char → Bool
  | [] => false
  | c :: rest => yearAt (c :: rest) || hasYear rest

def monthAbbrevs : List String :=
  ["dec", "mar", "sep", "jun", "feb", "jan", "jul", "aug", "nov", "oct", "apr", "may"]

/-- The date-ish cell test of the segmenter's header scan. -/
def cellDateish (s : String) : Bool :=
  let low := s.data.map Char.toLower
  hasYear low || monthAbbrevs.any (fun m => charsHas m.data low)

/-- Number of date-ish cells of a row. -/
def dateCount (r : List String) : Nat := r.countP cellDateish

/-- `date_count >= (len(row_values) // 2)` — note the floor division. -/
def rowQualifies (w : Nat) (r : List String) : Bool := decide (w / 2 ≤ dateCount r)

/-- Locate the date-header row: the first of the first three rows whose
date-ish count reaches half the width (floor); row 0 when none does. -/
def find_date_row (df : List (List String)) : Nat :=
  match (List.range (min 3 df.length)).find?
      (fun i => rowQualifies (ncols df) ((paddedRows df).getD i [])) with
  | some i => i
  | none => 0

/-- `mostly_caps`: more than 70 % of the label's alphabetic characters are
upper case (`10 * upper > 7 * alpha` is the exact rational comparison the
float expression computes on these sizes). -/
def mostly_caps (s : String) : Bool :=
  let alpha := s.data.filter Char.isAlpha
  if alpha.length = 0 then false
  else decide (7 * alpha.length < 10 * alpha.countP Char.isUpper)

/-- A cell that counts as non-empty: truthy and non-blank after stripping. -/
def cellFilled (s : String) : Bool := !(pyStrip s == "")

/-- The section-heading heuristic on a padded data row. -/
def isSectionHeading (r : List String) : Bool :=
  decide (r.countP cellFilled ≤ 2) &&
    (mostly_caps (pyStrip (r.getD 0 "")) || lastIsColon (pyStrip (r.getD 0 "")).data)

/-- Python dict assignment `d[k] = v`: an existing key keeps its position and
gets the new value, a new key is appended. -/
def dictInsert {α β : Type} [DecidableEq α] : List (α × β) → α → β → List (α × β)
  | [], k, v => [(k, v)]
  | (k0, v0) :: rest, k, v =>
    if k0 = k then (k0, v) :: rest else (k0, v0) :: dictInsert rest k v

/-- Python dict lookup `d.get(k)`. -/
def dictFind {α β : Type} [DecidableEq α] : List (α × β) → α → Option β
  | [], _ => none
  | (k0, v0) :: rest, k => if k0 = k then some v0 else dictFind rest k

/-- Collect a line row's `date_values`: for each column index from 1 on that
has a date label, the stripped cell when non-blank, keyed by that label. -/
def collectVals (date_labels : List String) : Nat → List String →
    List (String × String) → List (String × String)
  | _, [], acc => acc
  | col, c :: rest, acc =>
    if col = 0 then collectVals date_labels (col + 1) rest acc
    else if col < date_labels.length then
      (let v := pyStrip c
       if v == "" then collectVals date_labels (col + 1) rest acc
       else collectVals date_labels (col + 1) rest
          (dictInsert acc (date_labels.getD col "") v))
    else collectVals date_labels (col + 1) rest acc

/-- The segmenter's main loop over the data rows below the header, carrying
the absolute row index (for synthetic labels) and the current section. -/
def processRows (date_labels : List String) : Nat → String → List (List String) → List Row
  | _, _, [] => []
  | row_i, cur, r :: rest =>
    if r.isEmpty then processRows date_labels (row_i + 1) cur rest
    else
      let label := pyStrip (r.getD 0 "")
      if isSectionHeading r then
        let newSec : String := ⟨rstripColonChars label.data⟩
        { type := "section", section_name := newSec, line_label := "", date_values := [] }
          :: processRows date_labels (row_i + 1) newSec rest
      else
        let row0 : Row :=
          { type := "line", section_name := cur,
            line_label := if label == "" then "Line_" ++ toString row_i else label,
            date_values := collectVals date_labels 0 r [] }
        { row0 with section_name := adjust_line_section row0 }
          :: processRows date_labels (row_i + 1) cur rest

/-- `extract_line_items_with_sections`: empty result for a degenerate table,
otherwise locate the header row, record its stripped cells as date labels
and fold the remaining rows into section and line rows. -/
def extract_line_items_with_sections (df : List (List String)) : List Row :=
  if df.isEmpty || decide (ncols df < 2) then []
  else
    let rs := paddedRows df
    let dri := find_date_row df
    let date_labels := (rs.getD dri []).map pyStrip
    processRows date_labels (dri + 1) "" (rs.drop (dri + 1))

/-! ## Master merger: `select_closest_date` and `merge_statements_into_master` -/

structure FilingStatement where
  filing_key : String
  filing_date : String
  rows : List Row
  deriving DecidableEq, Repr

/-- The identity triple `(row["type"], row["section_name"], row["line_label"])`. -/
abbrev MasterKey := String × String × String

def rowKey (row : Row) : MasterKey := (row.type, row.section_name, row.line_label)

/-- Candidate a raw date label contributes to the closest-date loop: its
canonical form and day distance, or `none` when the canonical form does not
parse back as a date (the label is excluded). -/
def selCand (filingDays : Nat) (raw : String) : Option (String × String × Nat) :=
  let canon := parse_date_label raw
  match strptimeIso canon with
  | some dt => some (raw, canon, natDist filingDays (toDays dt))
  | none => none

/-- The loop of `select_closest_date`: keep the best candidate, replacing it
only on a strictly smaller distance (ties keep the first-encountered). -/
def selectLoop (filingDays : Nat) : List String → Option (String × String × Nat) →
    Option (String × String × Nat)
  | [], best => best
  | raw :: rest, best =>
    match selCand filingDays raw with
    | none => selectLoop filingDays rest best
    | some c =>
      match best with
      | none => selectLoop filingDays rest (some c)
      | some b =>
        if c.2.2 < b.2.2 then selectLoop filingDays rest (some c)
        else selectLoop filingDays rest (some b)

/-- Reference view of `selectLoop`'s accumulator: the strict-improvement
minimum of a candidate sequence started from a given best, so the final best
is the first candidate attaining the overall minimum distance. -/
def seqMinGo : (String × String × Nat) → List (String × String × Nat) →
    String × String × Nat
  | b, [] => b
  | b, x :: xs => if x.2.2 < b.2.2 then seqMinGo x xs else seqMinGo b xs

/-- The candidates of the closest-date loop, in iteration order. -/
def selCands (filingDays : Nat) (keys : List String) : List (String × String × Nat) :=
  keys.filterMap (selCand filingDays)

/-- `select_closest_date`: among the dict's raw labels (in insertion order)
the first one whose canonical date is nearest the filing date, with its
canonical form; `none` for an empty dict or no parseable label.  The source
raises if the filing date itself fails `strptime`; that error path is
modelled as no selection (the driver always passes an ISO filing date). -/
def select_closest_date (date_vals : List (String × String))
    (filing_date_str : String) : Option (String × String) :=
  if date_vals.isEmpty then none
  else
    match strptimeIso filing_date_str with
    | none => none
    | some fd =>
      match selectLoop (toDays fd) (date_vals.map Prod.fst) none with
      | none => none
      | some (raw, canon, _) => some (raw, canon)

/-- The accumulator of the merge fold: insertion-ordered key list, the
per-key dict of canonical date to value, and the set of canonical dates
(modelled with a deterministic insertion order; the source's Python set
is consumed only through `sorted`). -/
structure Master where
  master_order : List MasterKey
  master_data : List (MasterKey × List (String × String))
  all_dates : List String
  deriving DecidableEq, Repr

/-- `if key not in master_order: master_order.append(key)`. -/
def insKey (o : List MasterKey) (k : MasterKey) : List MasterKey :=
  if k ∈ o then o else o ++ [k]

/-- `if key not in master_data: master_data[key] = {}`. -/
def ensureKey (data : List (MasterKey × List (String × String))) (k : MasterKey) :
    List (MasterKey × List (String × String)) :=
  match dictFind data k with
  | some _ => data
  | none => data ++ [(k, [])]

/-- `master_data[key][canon] = val` (the key entry is present by then). -/
def dictUpdate : List (MasterKey × List (String × String)) → MasterKey → String →
    String → List (MasterKey × List (String × String))
  | [], k, c, v => [(k, [(c, v)])]
  | (k0, d0) :: rest, k, c, v =>
    if k0 = k then (k0, dictInsert d0 c v) :: rest
    else (k0, d0) :: dictUpdate rest k c v

/-- `all_dates.add(canon)` (set insertion, modelled in first-seen order). -/
def insertSet (l : List String) (x : String) : List String :=
  if x ∈ l then l else l ++ [x]

/-- The write a row performs, if any: its key, the selected canonical date
and the value stored at the selected raw label. -/
def rowWrite (filing_date : String) (row : Row) : Option (MasterKey × String × String) :=
  match select_closest_date row.date_values filing_date with
  | some (raw, canon) => some (rowKey row, canon, (dictFind row.date_values raw).getD "")
  | none => none

/-- One iteration of the merge fold.  The source computes the selection once;
this pure formulation computes it through `rowWrite` for each field, which is
the same function of the inputs. -/
def mergeRow (filing_date : String) (m : Master) (row : Row) : Master :=
  { master_order := insKey m.master_order (rowKey row),
    master_data :=
      match rowWrite filing_date row with
      | none => ensureKey m.master_data (rowKey row)
      | some w => dictUpdate (ensureKey m.master_data (rowKey row)) (rowKey row) w.2.1 w.2.2,
    all_dates :=
      match rowWrite filing_date row with
      | none => m.all_dates
      | some w => insertSet m.all_dates w.2.1 }

def mergeStatement (m : Master) (st : FilingStatement) : Master :=
  st.rows.foldl (mergeRow st.filing_date) m

def emptyMaster : Master := { master_order := [], master_data := [], all_dates := [] }

/-- The merge fold over all statements, in input order. -/
def mergeAll (statements : List FilingStatement) : Master :=
  statements.foldl mergeStatement emptyMaster

/-- The chronological sort key: the day number of a `YYYY-MM-DD` string, or
a sentinel above every representable date for a string that fails to parse
(the source uses `datetime.datetime.max`, which compares above every date;
only comparisons of keys are ever consumed). -/
def parse_dt (s : String) : Nat :=
  match strptimeIso s with
  | some dt => toDays dt
  | none => 10000000

/-- Chronological order of date strings, parse failures last. -/
def dateLe (a b : String) : Prop := parse_dt a ≤ parse_dt b

instance : DecidableRel dateLe := fun a b => Nat.decLe (parse_dt a) (parse_dt b)

instance : IsTotal String dateLe := ⟨fun _ _ => Nat.le_total _ _⟩

instance : IsTrans String dateLe := ⟨fun _ _ _ => Nat.le_trans⟩

/-- `sorted(all_dates, key=parse_dt)`: a stable sort by the chronological key. -/
def sortDates (l : List String) : List String := l.insertionSort dateLe

/-- Final assembly: header row `["Line / Section"] + sorted_dates`, then one
output row per master key — the bare section name padded with blanks for a
section, the two-space-indented label with each date's cell (blank when
absent) for a line. -/
def merge_statements_into_master (statements : List FilingStatement) :
    List (List String) :=
  let m := mergeAll statements
  let sorted_dates := sortDates m.all_dates
  ("Line / Section" :: sorted_dates) ::
    m.master_order.map (fun key =>
      if key.1 = "section" then key.2.1 :: sorted_dates.map (fun _ => "")
      else ("  " ++ key.2.2) ::
        sorted_dates.map (fun d => (dictFind ((dictFind m.master_data key).getD []) d).getD ""))

/-! ## Derived views used by the claims -/

/-- All master keys contributed by the statements, in processing order. -/
def allKeys (statements : List FilingStatement) : List MasterKey :=
  statements.flatMap (fun st => st.rows.map rowKey)

/-- Index of the first occurrence of a key in a list (list length when absent). -/
def firstIdx : List MasterKey → MasterKey → Nat
  | [], _ => 0
  | x :: rest, k => if x = k then 0 else firstIdx rest k + 1

/-- The sequence of cell writes the merge of one statement performs. -/
def stWrites (st : FilingStatement) : List (MasterKey × String × String) :=
  st.rows.filterMap (rowWrite st.filing_date)

/-- The flat sequence of cell writes the whole merge performs. -/
def allWrites (statements : List FilingStatement) : List (MasterKey × String × String) :=
  statements.flatMap stWrites

/-- The merged value of a (key, canonical date) cell. -/
def lookupCell (m : Master) (k : MasterKey) (c : String) : Option String :=
  match dictFind m.master_data k with
  | some d => dictFind d c
  | none => none

/-- The value of the last write to a (key, canonical date) cell of a write
sequence: the latest entry whose key and canonical date both match. -/
def lastWrite : List (MasterKey × String × String) → MasterKey → String → Option String
  | [], _, _ => none
  | w :: rest, k, c =>
    match lastWrite rest k c with
    | some v => some v
    | none => if w.1 = k ∧ w.2.1 = c then some w.2.2 else none

/-- The per-key dictionaries of the master data have pairwise-distinct
canonical-date keys (each pair maps to at most one value). -/
def CellKeysNodup (data : List (MasterKey × List (String × String))) : Prop :=
  ∀ (k : MasterKey) (d : List (String × String)),
    dictFind data k = some d → (d.map Prod.fst).Nodup

/-- Claim C2's date-header-row rule as the specification words it: the count
of date-ish cells is at least half the row's cell count (the exact rational
comparison `2 * count ≥ width`).  This definition follows the spec's words,
for comparison with `find_date_row`, which follows the code (whose threshold
is the floor `width // 2`). -/
def specRowQualifies (w : Nat) (r : List String) : Bool := decide (w ≤ 2 * dateCount r)

/-- The header-row choice under `specRowQualifies` (spec's wording), compared
against the code's `find_date_row`. -/
def specDateRow (df : List (List String)) : Nat :=
  match (List.range (min 3 df.length)).find?
      (fun i => specRowQualifies (ncols df) ((paddedRows df).getD i [])) with
  | some i => i
  | none => 0

/-! ## Claim C1: closest-date selection -/

/-- `selectLoop` started from a best candidate computes `seqMinGo` over the
parseable candidates. -/
theorem selectLoop_some (fd : Nat) : ∀ (keys : List String) (b : String × String × Nat),
    selectLoop fd keys (some b) = some (seqMinGo b (selCands fd keys)) := by
  intro keys
  induction keys with
  | nil => intro b; rfl
  | cons raw rest ih =>
    intro b
    cases h : selCand fd raw with
    | none => simp only [selectLoop, h, selCands, List.filterMap_cons_none h, ih, selCands]
    | some c =>
      simp only [selectLoop, h, selCands, List.filterMap_cons_some h]
      by_cases hlt : c.2.2 < b.2.2
      · simp only [if_pos hlt, ih c, seqMinGo, selCands]
      · simp only [if_neg hlt, ih b, seqMinGo, selCands]

/-- `selectLoop` started empty returns the strict-improvement minimum of the
parseable candidates, or `none` when there is none. -/
theorem selectLoop_none (fd : Nat) : ∀ keys : List String,
    selectLoop fd keys none =
      match selCands fd keys with
      | [] => none
      | c :: cs => some (seqMinGo c cs) := by
  intro keys
  induction keys with
  | nil => rfl
  | cons raw rest ih =>
    cases h : selCand fd raw with
    | none =>
      simp only [selectLoop, h, selCands, List.filterMap_cons_none h, ih, selCands]
    | some c =>
      simp only [selectLoop, h, selCands, List.filterMap_cons_some h, selectLoop_some]

/-- The result of `seqMinGo` splits its input sequence into a strictly-worse
prefix, itself, and a no-better remainder: it is the first element attaining
the minimum distance. -/
theorem seqMinGo_spec : ∀ (l : List (String × String × Nat)) (b : String × String × Nat),
    ∃ pre suf, b :: l = pre ++ seqMinGo b l :: suf ∧
      (∀ x ∈ pre, (seqMinGo b l).2.2 < x.2.2) ∧
      (∀ x ∈ b :: l, (seqMinGo b l).2.2 ≤ x.2.2) := by
  intro l
  induction l with
  | nil =>
    intro b
    exact ⟨[], [], rfl, by simp, by simp [seqMinGo]⟩
  | cons x xs ih =>
    intro b
    by_cases hlt : x.2.2 < b.2.2
    · obtain ⟨pre, suf, hsplit, hpre, hall⟩ := ih x
      refine ⟨b :: pre, suf, ?_, ?_, ?_⟩
      · simp only [seqMinGo, if_pos hlt]
        rw [List.cons_append, ← hsplit]
      · intro z hz
        simp only [seqMinGo, if_pos hlt]
        rcases List.mem_cons.mp hz with h | h
        · subst h
          exact Nat.lt_of_le_of_lt (hall x (List.mem_cons_self x xs)) hlt
        · exact hpre z h
      · intro z hz
        simp only [seqMinGo, if_pos hlt]
        rcases List.mem_cons.mp hz with h | h
        · subst h
          exact Nat.le_of_lt (Nat.lt_of_le_of_lt (hall x (List.mem_cons_self x xs)) hlt)
        · exact hall z h
    · have hgo : seqMinGo b (x :: xs) = seqMinGo b xs := by
        simp only [seqMinGo, if_neg hlt]
      obtain ⟨pre, suf, hsplit, hpre, hall⟩ := ih b
      have hble : b.2.2 ≤ x.2.2 := Nat.le_of_not_lt hlt
      rw [hgo]
      have hthird : ∀ z ∈ b :: x :: xs, (seqMinGo b xs).2.2 ≤ z.2.2 := by
        intro z hz
        rcases List.mem_cons.mp hz with rfl | hz'
        · exact hall z (List.mem_cons_self z xs)
        · rcases List.mem_cons.mp hz' with rfl | hz''
          · exact Nat.le_trans (hall b (List.mem_cons_self b xs)) hble
          · exact hall z (List.mem_cons_of_mem b hz'')
      cases pre with
      | nil =>
        simp only [List.nil_append] at hsplit
        refine ⟨[], x :: suf, ?_, by simp, hthird⟩
        injection hsplit with h1 h2
        simp only [List.nil_append]
        rw [← h1, ← h2]
      | cons p ps =>
        injection hsplit with h1 h2
        refine ⟨b :: x :: ps, suf, ?_, ?_, hthird⟩
        · simp only [List.cons_append]
          conv_lhs => rw [h2]
          rfl
        · intro z hz
          have hwp : (seqMinGo b xs).2.2 < p.2.2 := hpre p (List.mem_cons_self p ps)
          rcases List.mem_cons.mp hz with h | hz'
          · rw [h, show b.2.2 = p.2.2 from congrArg (fun t => t.2.2) h1]
            exact hwp
          · rcases List.mem_cons.mp hz' with h | hz''
            · rw [h]
              refine Nat.lt_of_lt_of_le hwp ?_
              rw [← h1]
              exact hble
            · exact hpre z (List.mem_cons_of_mem p hz'')

/-- A split of a `filterMap` image induces a split of its source. -/
theorem filterMap_split {α β : Type} (f : α → Option β) :
    ∀ (keys : List α) (pre : List β) (c : β) (suf : List β),
      keys.filterMap f = pre ++ c :: suf →
      ∃ kpre k ksuf, keys = kpre ++ k :: ksuf ∧ f k = some c ∧
        kpre.filterMap f = pre := by
  intro keys
  induction keys with
  | nil =>
    intro pre c suf h
    simp only [List.filterMap_nil] at h
    exact absurd h (by simp)
  | cons k0 rest ih =>
    intro pre c suf h
    cases hf : f k0 with
    | none =>
      rw [List.filterMap_cons_none hf] at h
      obtain ⟨kpre, k, ksuf, hkeys, hk, hpre⟩ := ih pre c suf h
      exact ⟨k0 :: kpre, k, ksuf, by rw [hkeys, List.cons_append],
        hk, by rw [List.filterMap_cons_none hf, hpre]⟩
    | some c0 =>
      rw [List.filterMap_cons_some hf] at h
      cases pre with
      | nil =>
        simp only [List.nil_append] at h
        injection h with h1 h2
        exact ⟨[], k0, rest, rfl, by rw [hf, h1], rfl⟩
      | cons p ps =>
        simp only [List.cons_append] at h
        injection h with h1 h2
        obtain ⟨kpre, k, ksuf, hkeys, hk, hpre⟩ := ih ps c suf h2
        exact ⟨k0 :: kpre, k, ksuf, by rw [hkeys, List.cons_append], hk,
          by rw [List.filterMap_cons_some hf, hpre, h1]⟩

/-- What a parseable candidate records: the raw label itself, its canonical
form, and its day distance from the filing date. -/
theorem selCand_some {fd : Nat} {raw : String} {c : String × String × Nat}
    (h : selCand fd raw = some c) :
    c.1 = raw ∧ c.2.1 = parse_date_label raw ∧
      ∃ dt, strptimeIso (parse_date_label raw) = some dt ∧
        c.2.2 = natDist fd (toDays dt) := by
  simp only [selCand] at h
  cases hs : strptimeIso (parse_date_label raw) with
  | none => rw [hs] at h; exact absurd h (by simp)
  | some dt =>
    rw [hs] at h
    injection h with h1
    subst h1
    exact ⟨rfl, rfl, dt, rfl, rfl⟩

/-- An unparseable label contributes no candidate. -/
theorem selCand_none {fd : Nat} {raw : String}
    (h : strptimeIso (parse_date_label raw) = none) : selCand fd raw = none := by
  simp only [selCand]
  rw [h]

/-- Reduction of `select_closest_date` once the filing date is known to
parse and the dict is non-empty. -/
theorem select_closest_date_eq (vals : List (String × String)) (fdStr : String)
    (fd : Date) (hfd : strptimeIso fdStr = some fd) (hne : vals.isEmpty = false) :
    select_closest_date vals fdStr =
      match selectLoop (toDays fd) (vals.map Prod.fst) none with
      | none => none
      | some (raw, canon, _) => some (raw, canon) := by
  unfold select_closest_date
  rw [hne, hfd]
  rfl

/-- Claim C1: for every row and parseable filing date, the selection returns
a raw label of the row whose canonical form parses, whose day distance to
the filing date is minimal among all parseable labels, and which strictly
beats every parseable label encountered before it (ties favor the first
encountered); labels whose canonical form fails to parse are excluded, and
when every label fails nothing is selected.  In particular, for labels
2023-12-31, 2024-03-31 and 2024-06-30 and filing date 2024-04-01, it selects
2024-03-31. -/
theorem C1_closest_date_selection :
    (∀ (vals : List (String × String)) (fdStr : String) (fd : Date)
      (raw canon : String),
      strptimeIso fdStr = some fd →
      select_closest_date vals fdStr = some (raw, canon) →
      canon = parse_date_label raw ∧
      ∃ dt pre suf, strptimeIso canon = some dt ∧
        vals.map Prod.fst = pre ++ raw :: suf ∧
        (∀ r' ∈ pre, ∀ dt', strptimeIso (parse_date_label r') = some dt' →
          natDist (toDays fd) (toDays dt) < natDist (toDays fd) (toDays dt')) ∧
        (∀ r' ∈ vals.map Prod.fst, ∀ dt', strptimeIso (parse_date_label r') = some dt' →
          natDist (toDays fd) (toDays dt) ≤ natDist (toDays fd) (toDays dt'))) ∧
    (∀ (vals : List (String × String)) (fdStr : String) (fd : Date),
      strptimeIso fdStr = some fd →
      select_closest_date vals fdStr = none →
      ∀ r ∈ vals.map Prod.fst, strptimeIso (parse_date_label r) = none) ∧
    select_closest_date
      [("2023-12-31", "100"), ("2024-03-31", "110"), ("2024-06-30", "120")]
      "2024-04-01" = some ("2024-03-31", "2024-03-31") := by
  refine ⟨?_, ?_, by decide⟩
  · intro vals fdStr fd raw canon hfd hsel
    by_cases hemp : vals.isEmpty = true
    · unfold select_closest_date at hsel
      rw [if_pos hemp] at hsel
      exact absurd hsel (by simp)
    · have hemp' : vals.isEmpty = false := by
        revert hemp
        cases vals.isEmpty <;> simp
      rw [select_closest_date_eq vals fdStr fd hfd hemp'] at hsel
      cases hloop : selectLoop (toDays fd) (vals.map Prod.fst) none with
      | none => rw [hloop] at hsel; exact absurd hsel (by simp)
      | some w =>
        rw [hloop] at hsel
        obtain ⟨wr, wc, wd⟩ := w
        injection hsel with hsel
        injection hsel with h1 h2
        subst wr
        subst wc
        rw [selectLoop_none] at hloop
        cases hcands : selCands (toDays fd) (vals.map Prod.fst) with
        | nil => rw [hcands] at hloop; exact absurd hloop (by simp)
        | cons c0 cs =>
          rw [hcands] at hloop
          injection hloop with hmin
          obtain ⟨pre, suf, hsplit, hpre, hall⟩ := seqMinGo_spec cs c0
          rw [hmin] at hsplit hpre hall
          have hc : selCands (toDays fd) (vals.map Prod.fst) = pre ++ (raw, canon, wd) :: suf := by
            rw [hcands, hsplit]
          obtain ⟨kpre, k, ksuf, hkeys, hk, hkpre⟩ :=
            filterMap_split (selCand (toDays fd)) (vals.map Prod.fst) pre (raw, canon, wd) suf hc
          obtain ⟨hk1, hk2, dt, hdt, hd⟩ := selCand_some hk
          simp only at hk1 hk2 hd
          subst k
          refine ⟨hk2, dt, kpre, ksuf, by rw [hk2]; exact hdt, hkeys, ?_, ?_⟩
          · intro r' hr' dt' hdt'
            have hcand : selCand (toDays fd) r' =
                some (r', parse_date_label r', natDist (toDays fd) (toDays dt')) := by
              simp only [selCand]
              rw [hdt']
            have hmem : (r', parse_date_label r', natDist (toDays fd) (toDays dt')) ∈ pre := by
              rw [← hkpre]
              exact List.mem_filterMap.mpr ⟨r', hr', hcand⟩
            have := hpre _ hmem
            simp only at this
            rw [← hd]
            exact this
          · intro r' hr' dt' hdt'
            have hcand : selCand (toDays fd) r' =
                some (r', parse_date_label r', natDist (toDays fd) (toDays dt')) := by
              simp only [selCand]
              rw [hdt']
            have hmem : (r', parse_date_label r', natDist (toDays fd) (toDays dt')) ∈
                c0 :: cs := by
              rw [← hcands]
              exact List.mem_filterMap.mpr ⟨r', hr', hcand⟩
            have := hall _ hmem
            simp only at this
            rw [← hd]
            exact this
  · intro vals fdStr fd hfd hsel r hr
    by_cases hemp : vals.isEmpty = true
    · rw [List.isEmpty_iff] at hemp
      subst hemp
      exact absurd hr (by simp)
    · have hemp' : vals.isEmpty = false := by
        revert hemp
        cases vals.isEmpty <;> simp
      rw [select_closest_date_eq vals fdStr fd hfd hemp'] at hsel
      cases hloop : selectLoop (toDays fd) (vals.map Prod.fst) none with
      | some w =>
        rw [hloop] at hsel
        obtain ⟨wr, wc, wd⟩ := w
        exact absurd hsel (by simp)
      | none =>
        rw [selectLoop_none] at hloop
        cases hcands : selCands (toDays fd) (vals.map Prod.fst) with
        | cons c0 cs => rw [hcands] at hloop; exact absurd hloop (by simp)
        | nil =>
          have hnone : selCand (toDays fd) r = none := by
            have := List.filterMap_eq_nil.mp hcands
            exact this r hr
          simp only [selCand] at hnone
          cases hs : strptimeIso (parse_date_label r) with
          | none => rfl
          | some dt => rw [hs] at hnone; exact absurd hnone (by simp)

/-! ## Claim C6: the reclassifier's override rules -/

/-- Claim C6: for every `Line` row, the reclassifier returns
"Current liabilities" when the label case-insensitively contains
"accounts payable" or "accrued and other current liabilities" (regardless of
the original section); failing that, "Post-Statement" when the label
case-insensitively starts with "common stock, $0.01 par value"; and
otherwise the row's existing section unchanged.  For `Section` rows it
always returns the existing section.  In particular a line labelled
"Accrued and other current liabilities" is moved out of
"LONG-TERM LIABILITIES" into "Current liabilities". -/
theorem C6_reclassifier_rules :
    (∀ row : Row, row.type = "line" →
      ((strContains (pyLower row.line_label) "accounts payable" = true ∨
        strContains (pyLower row.line_label) "accrued and other current liabilities" = true) →
          adjust_line_section row = "Current liabilities") ∧
      (¬(strContains (pyLower row.line_label) "accounts payable" = true ∨
         strContains (pyLower row.line_label) "accrued and other current liabilities" = true) →
        strStarts (pyLower row.line_label) "common stock, $0.01 par value" = true →
          adjust_line_section row = "Post-Statement") ∧
      (¬(strContains (pyLower row.line_label) "accounts payable" = true ∨
         strContains (pyLower row.line_label) "accrued and other current liabilities" = true) →
        ¬(strStarts (pyLower row.line_label) "common stock, $0.01 par value" = true) →
          adjust_line_section row = row.section_name)) ∧
    (∀ row : Row, row.type ≠ "line" → adjust_line_section row = row.section_name) ∧
    adjust_line_section
      { type := "line", section_name := "LONG-TERM LIABILITIES",
        line_label := "Accrued and other current liabilities", date_values := [] } =
      "Current liabilities" := by
  refine ⟨fun row hline => ?_, fun row hnot => ?_, by decide⟩
  · have hl : ¬(row.type ≠ "line") := by simp [hline]
    refine ⟨fun h1 => ?_, fun h1 h2 => ?_, fun h1 h2 => ?_⟩
    · simp only [adjust_line_section, if_neg hl, if_pos h1]
    · simp only [adjust_line_section, if_neg hl, if_neg h1, if_pos h2]
    · simp only [adjust_line_section, if_neg hl, if_neg h1, if_neg h2]
  · simp only [adjust_line_section, if_pos hnot]

/-! ## Claim C7: error handling of the date canonicalizer -/

/-- Claim C7: for every input string, `parse_date_label` strips parenthesized
groups and abbreviation dots (after trimming), fuzzy-parses the remainder,
and returns the `YYYY-MM-DD` form on success and the stripped-but-unparsed
string on failure, never raising.  Concretely, a noisy month-name header
canonicalizes to ISO and a non-date header falls back to its stripped text. -/
theorem C7_canonicalizer_fallback :
    (∀ dlabel : String, ∀ dt : Date,
      fuzzyParse ⟨stripDots (pyStripChars (stripParens dlabel.data))⟩ = some dt →
        parse_date_label dlabel = isoFormat dt) ∧
    (∀ dlabel : String,
      fuzzyParse ⟨stripDots (pyStripChars (stripParens dlabel.data))⟩ = none →
        parse_date_label dlabel = ⟨stripDots (pyStripChars (stripParens dlabel.data))⟩) ∧
    parse_date_label "Mar. 31, 2024 (10-Q 2024-02-06)" = "2024-03-31" ∧
    parse_date_label "Total (unaudited)" = "Total" := by
  refine ⟨fun dlabel dt h => ?_, fun dlabel h => ?_, by decide, by decide⟩
  · simp only [parse_date_label, h]
  · simp only [parse_date_label, h]

/-! ## Claim C2: locating the date-header row -/

/-- First-match characterization of `find?` over `List.range n`: either some
`i < n` is the first index satisfying `p`, or no index below `n` does. -/
theorem range_find?_spec (n : Nat) (p : Nat → Bool) :
    (∃ i, i < n ∧ p i = true ∧ (∀ j, j < i → p j = false) ∧
      (List.range n).find? p = some i) ∨
    ((∀ i, i < n → p i = false) ∧ (List.range n).find? p = none) := by
  induction n with
  | zero => exact Or.inr ⟨fun i h => absurd h (Nat.not_lt_zero i), rfl⟩
  | succ n ih =>
    rcases ih with ⟨i, hi, hp, hfirst, hfind⟩ | ⟨hall, hfind⟩
    · exact Or.inl ⟨i, Nat.lt_succ_of_lt hi, hp, hfirst,
        by rw [List.range_succ, List.find?_append, hfind]; rfl⟩
    · by_cases hn : p n = true
      · refine Or.inl ⟨n, Nat.lt_succ_self n, hn, hall, ?_⟩
        rw [List.range_succ, List.find?_append, hfind]
        simp [hn]
      · refine Or.inr ⟨fun i hi => ?_, ?_⟩
        · rcases Nat.lt_succ_iff_lt_or_eq.mp hi with h | h
          · exact hall i h
          · subst h
            exact Bool.eq_false_iff.mpr hn
        · rw [List.range_succ, List.find?_append, hfind]
          simp [hn]

/-- Counterexample to claim C2 as stated: on this non-empty, 3-column table
the code (`find_date_row`, threshold `width // 2` = 1) picks row 1, which has
a single date-ish cell out of three — strictly fewer than half — while the
claimed rule (`specDateRow`, count at least half the cell count) disqualifies
every row and defaults to row 0. -/
theorem C2_half_threshold_cex :
    find_date_row [["aa", "bb", "cc"], ["2024", "", ""], ["x", "", ""], ["y", "1", "2"]] = 1 ∧
    specDateRow [["aa", "bb", "cc"], ["2024", "", ""], ["x", "", ""], ["y", "1", "2"]] = 0 ∧
    ¬(ncols [["aa", "bb", "cc"], ["2024", "", ""], ["x", "", ""], ["y", "1", "2"]] ≤
      2 * dateCount ["2024", "", ""]) := by
  refine ⟨by decide, by decide, by decide⟩

/-- Claim C2 as amended: for every non-empty raw table with at least 2
columns, the segmenter selects as date-header row the first among at most
the first 3 rows whose date-ish cell count is at least the floor of half the
row's cell count (`width // 2`, integer division), and defaults to row 0
when no row among the first 3 qualifies. -/
theorem C2_date_header_row (df : List (List String))
    (hne : df ≠ []) (hw : 2 ≤ ncols df) :
    (∃ i, i < min 3 df.length ∧
      ncols df / 2 ≤ dateCount ((paddedRows df).getD i []) ∧
      (∀ j, j < i → ¬(ncols df / 2 ≤ dateCount ((paddedRows df).getD j []))) ∧
      find_date_row df = i) ∨
    ((∀ i, i < min 3 df.length →
        ¬(ncols df / 2 ≤ dateCount ((paddedRows df).getD i []))) ∧
      find_date_row df = 0) := by
  have h := range_find?_spec (min 3 df.length)
    (fun i => rowQualifies (ncols df) ((paddedRows df).getD i []))
  rcases h with ⟨i, hi, hp, hfirst, hfind⟩ | ⟨hall, hfind⟩
  · refine Or.inl ⟨i, hi, of_decide_eq_true hp, fun j hj => ?_, ?_⟩
    · exact of_decide_eq_false (hfirst j hj)
    · unfold find_date_row
      rw [hfind]
  · refine Or.inr ⟨fun i hi => of_decide_eq_false (hall i hi), ?_⟩
    unfold find_date_row
    rw [hfind]

/-- Witness for C2 (amended) at a 2-column table whose first row holds two
date-ish cells: row 0 is selected. -/
theorem C2_date_header_row_witness :
    (∃ i, i < min 3 ([["Dec. 31, 2024", "Dec. 31, 2023"], ["Cash", "1"]] :
        List (List String)).length ∧
      ncols [["Dec. 31, 2024", "Dec. 31, 2023"], ["Cash", "1"]] / 2 ≤
        dateCount ((paddedRows [["Dec. 31, 2024", "Dec. 31, 2023"], ["Cash", "1"]]).getD i []) ∧
      (∀ j, j < i →
        ¬(ncols [["Dec. 31, 2024", "Dec. 31, 2023"], ["Cash", "1"]] / 2 ≤
          dateCount ((paddedRows [["Dec. 31, 2024", "Dec. 31, 2023"], ["Cash", "1"]]).getD j []))) ∧
      find_date_row [["Dec. 31, 2024", "Dec. 31, 2023"], ["Cash", "1"]] = i) ∨
    ((∀ i, i < min 3 ([["Dec. 31, 2024", "Dec. 31, 2023"], ["Cash", "1"]] :
        List (List String)).length →
        ¬(ncols [["Dec. 31, 2024", "Dec. 31, 2023"], ["Cash", "1"]] / 2 ≤
          dateCount ((paddedRows [["Dec. 31, 2024", "Dec. 31, 2023"], ["Cash", "1"]]).getD i []))) ∧
      find_date_row [["Dec. 31, 2024", "Dec. 31, 2023"], ["Cash", "1"]] = 0) :=
  C2_date_header_row [["Dec. 31, 2024", "Dec. 31, 2023"], ["Cash", "1"]]
    (by decide) (by decide)

/-! ## Claim C4: stability of `row_order` under the merge fold -/

theorem mergeRow_order (fd : String) (m : Master) (row : Row) :
    (mergeRow fd m row).master_order = insKey m.master_order (rowKey row) := rfl

theorem foldRows_order (fd : String) : ∀ (rows : List Row) (m : Master),
    (rows.foldl (mergeRow fd) m).master_order =
      (rows.map rowKey).foldl insKey m.master_order := by
  intro rows
  induction rows with
  | nil => intro m; rfl
  | cons row rest ih =>
    intro m
    simp only [List.foldl_cons, List.map_cons, ih, mergeRow_order]

theorem mergeAll_order_from : ∀ (ss : List FilingStatement) (m : Master),
    (ss.foldl mergeStatement m).master_order = (allKeys ss).foldl insKey m.master_order := by
  intro ss
  induction ss with
  | nil => intro m; rfl
  | cons st rest ih =>
    intro m
    have h1 : (st :: rest).foldl mergeStatement m =
        rest.foldl mergeStatement (mergeStatement m st) := rfl
    have h2 : (mergeStatement m st).master_order =
        (st.rows.map rowKey).foldl insKey m.master_order := by
      rw [mergeStatement, foldRows_order]
    have h3 : allKeys (st :: rest) = st.rows.map rowKey ++ allKeys rest := by
      unfold allKeys
      rw [List.flatMap_cons]
    rw [h1, ih, h2, h3, List.foldl_append]

theorem mergeAll_order (ss : List FilingStatement) :
    (mergeAll ss).master_order = (allKeys ss).foldl insKey [] :=
  mergeAll_order_from ss emptyMaster

theorem mem_insKey (o : List MasterKey) (k x : MasterKey) :
    x ∈ insKey o k ↔ x ∈ o ∨ x = k := by
  unfold insKey
  by_cases h : k ∈ o
  · rw [if_pos h]
    constructor
    · exact Or.inl
    · rintro (hx | rfl)
      · exact hx
      · exact h
  · rw [if_neg h]
    simp

theorem insKey_nodup {o : List MasterKey} (h : o.Nodup) (k : MasterKey) :
    (insKey o k).Nodup := by
  unfold insKey
  by_cases hk : k ∈ o
  · rwa [if_pos hk]
  · rw [if_neg hk]
    exact List.Nodup.append h (List.nodup_singleton k)
      (fun x hx hxk => hk ((List.mem_singleton.mp hxk) ▸ hx))

theorem foldl_insKey_nodup : ∀ (l : List MasterKey) {o : List MasterKey},
    o.Nodup → (l.foldl insKey o).Nodup := by
  intro l
  induction l with
  | nil => intro o h; exact h
  | cons k rest ih =>
    intro o h
    exact ih (insKey_nodup h k)

theorem mem_foldl_insKey : ∀ (l : List MasterKey) (o : List MasterKey) (x : MasterKey),
    x ∈ l.foldl insKey o ↔ x ∈ o ∨ x ∈ l := by
  intro l
  induction l with
  | nil => intro o x; simp
  | cons k rest ih =>
    intro o x
    rw [List.foldl_cons, ih, mem_insKey]
    simp only [List.mem_cons]
    tauto

theorem foldl_insKey_prefix : ∀ (l : List MasterKey) (o : List MasterKey),
    ∃ t, l.foldl insKey o = o ++ t := by
  intro l
  induction l with
  | nil => intro o; exact ⟨[], by simp⟩
  | cons k rest ih =>
    intro o
    by_cases hk : k ∈ o
    · have hins : insKey o k = o := by
        unfold insKey
        rw [if_pos hk]
      obtain ⟨t, ht⟩ := ih o
      exact ⟨t, by rw [List.foldl_cons, hins, ht]⟩
    · have hins : insKey o k = o ++ [k] := by
        unfold insKey
        rw [if_neg hk]
      obtain ⟨t, ht⟩ := ih (o ++ [k])
      refine ⟨k :: t, ?_⟩
      rw [List.foldl_cons, hins, ht, List.append_assoc]
      rfl

theorem firstIdx_append_left {a : MasterKey} : ∀ {l₁ : List MasterKey}
    (l₂ : List MasterKey), a ∈ l₁ → firstIdx (l₁ ++ l₂) a = firstIdx l₁ a := by
  intro l₁
  induction l₁ with
  | nil => intro l₂ h; exact absurd h (List.not_mem_nil a)
  | cons x rest ih =>
    intro l₂ h
    by_cases hx : x = a
    · simp only [List.cons_append, firstIdx, if_pos hx]
    · rcases List.mem_cons.mp h with h' | h'
      · exact absurd h'.symm hx
      · have hstep : firstIdx ((x :: rest) ++ l₂) a = firstIdx (rest ++ l₂) a + 1 := by
          simp only [List.cons_append, firstIdx, if_neg hx]
          rfl
        have hstep2 : firstIdx (x :: rest) a = firstIdx rest a + 1 := by
          simp only [firstIdx, if_neg hx]
        rw [hstep, hstep2, ih l₂ h']

theorem firstIdx_append_right {a : MasterKey} : ∀ {l₁ : List MasterKey}
    (l₂ : List MasterKey), a ∉ l₁ →
    firstIdx (l₁ ++ l₂) a = l₁.length + firstIdx l₂ a := by
  intro l₁
  induction l₁ with
  | nil => intro l₂ _; simp
  | cons x rest ih =>
    intro l₂ h
    have hx : ¬(x = a) := fun hc => h (hc ▸ List.mem_cons_self x rest)
    have hrest : a ∉ rest := fun hc => h (List.mem_cons_of_mem x hc)
    have hstep : firstIdx ((x :: rest) ++ l₂) a = firstIdx (rest ++ l₂) a + 1 := by
      simp only [List.cons_append, firstIdx, if_neg hx]
      rfl
    rw [hstep, ih l₂ hrest, List.length_cons]
    omega

theorem firstIdx_lt_length {a : MasterKey} : ∀ {l : List MasterKey},
    a ∈ l → firstIdx l a < l.length := by
  intro l
  induction l with
  | nil => intro h; exact absurd h (List.not_mem_nil a)
  | cons x rest ih =>
    intro h
    by_cases hx : x = a
    · simp [firstIdx, if_pos hx]
    · rcases List.mem_cons.mp h with h' | h'
      · exact absurd h'.symm hx
      · simp only [firstIdx, if_neg hx, List.length_cons]
        exact Nat.succ_lt_succ (ih h')

/-- Folding keys into an order list keeps keys sorted by their first
occurrence in the overall key sequence. -/
theorem foldl_insKey_pairwise :
    ∀ (l₂ l₁ o : List MasterKey) (L : List MasterKey), L = l₁ ++ l₂ →
      (∀ a, a ∈ o ↔ a ∈ l₁) →
      List.Pairwise (fun a b => firstIdx L a < firstIdx L b) o →
      List.Pairwise (fun a b => firstIdx L a < firstIdx L b) (l₂.foldl insKey o) := by
  intro l₂
  induction l₂ with
  | nil => intro l₁ o L _ _ hpw; exact hpw
  | cons k rest ih =>
    intro l₁ o L hL hmem hpw
    rw [List.foldl_cons]
    refine ih (l₁ ++ [k]) (insKey o k) L ?_ ?_ ?_
    · rw [hL, List.append_assoc]
      rfl
    · intro a
      rw [mem_insKey, hmem a]
      simp
    · unfold insKey
      by_cases hk : k ∈ o
      · rwa [if_pos hk]
      · rw [if_neg hk]
        rw [List.pairwise_append]
        refine ⟨hpw, List.pairwise_singleton _ k, ?_⟩
        intro a ha b hb
        have hbk : b = k := List.mem_singleton.mp hb
        rw [hbk]
        have ha1 : a ∈ l₁ := (hmem a).mp ha
        have hk1 : k ∉ l₁ := fun hc => hk ((hmem k).mpr hc)
        have h1 : firstIdx L a < l₁.length := by
          rw [hL, firstIdx_append_left _ ha1]
          exact firstIdx_lt_length ha1
        have h2 : l₁.length ≤ firstIdx L k := by
          rw [hL, firstIdx_append_right _ hk1]
          exact Nat.le_add_right _ _
        exact Nat.lt_of_lt_of_le h1 h2

/-- Claim C4: across any ordered sequence of statements, `row_order` holds
each key exactly once (no duplicates), holds exactly the keys the statements
contribute, lists them sorted by first appearance in the processed key
sequence, and processing further statements only appends to the existing
order (re-encountered keys neither duplicate nor move).  Concretely,
re-processing a statement a second time leaves the order unchanged. -/
theorem C4_row_order_stability :
    (∀ ss : List FilingStatement, (mergeAll ss).master_order.Nodup) ∧
    (∀ (ss : List FilingStatement) (k : MasterKey),
      k ∈ (mergeAll ss).master_order ↔ k ∈ allKeys ss) ∧
    (∀ ss : List FilingStatement,
      List.Pairwise (fun a b => firstIdx (allKeys ss) a < firstIdx (allKeys ss) b)
        (mergeAll ss).master_order) ∧
    (∀ ss1 ss2 : List FilingStatement, ∃ t,
      (mergeAll ss1).master_order ++ t = (mergeAll (ss1 ++ ss2)).master_order) ∧
    (mergeAll
      [{ filing_key := "F1", filing_date := "2024-08-06",
         rows := [{ type := "section", section_name := "ASSETS", line_label := "",
                    date_values := [] },
                  { type := "line", section_name := "ASSETS", line_label := "Cash",
                    date_values := [("2024-06-30", "7")] }] },
       { filing_key := "F2", filing_date := "2024-02-06",
         rows := [{ type := "line", section_name := "ASSETS", line_label := "Goodwill",
                    date_values := [("2023-12-31", "9")] },
                  { type := "line", section_name := "ASSETS", line_label := "Cash",
                    date_values := [("2023-12-31", "5")] }] },
       { filing_key := "F1", filing_date := "2024-08-06",
         rows := [{ type := "section", section_name := "ASSETS", line_label := "",
                    date_values := [] },
                  { type := "line", section_name := "ASSETS", line_label := "Cash",
                    date_values := [("2024-06-30", "7")] }] }]).master_order =
      [("section", "ASSETS", ""), ("line", "ASSETS", "Cash"),
       ("line", "ASSETS", "Goodwill")] := by
  refine ⟨?_, ?_, ?_, ?_, by decide⟩
  · intro ss
    rw [mergeAll_order]
    exact foldl_insKey_nodup _ List.nodup_nil
  · intro ss k
    rw [mergeAll_order, mem_foldl_insKey]
    simp
  · intro ss
    rw [mergeAll_order]
    exact foldl_insKey_pairwise (allKeys ss) [] [] (allKeys ss) rfl (by simp)
      List.Pairwise.nil
  · intro ss1 ss2
    rw [mergeAll_order, mergeAll_order]
    have hsplit : allKeys (ss1 ++ ss2) = allKeys ss1 ++ allKeys ss2 := by
      unfold allKeys
      rw [List.flatMap_append]
    rw [hsplit, List.foldl_append]
    obtain ⟨t, ht⟩ := foldl_insKey_prefix (allKeys ss2) ((allKeys ss1).foldl insKey [])
    exact ⟨t, ht.symm⟩

/-! ## Claim C8: idempotence of canonicalization on ISO output -/

/-- Everything needed about a digit character produced by `digitCharAux`. -/
theorem digitCharAux_facts : ∀ k, k < 10 →
    ((digitCharAux k).isDigit = true ∧ digitVal (digitCharAux k) = k ∧
      digitCharAux k ≠ '(' ∧ digitCharAux k ≠ '.' ∧
      (digitCharAux k).isWhitespace = false) := by decide

theorem digitChar_isDigit (n : Nat) : (digitChar n).isDigit = true :=
  (digitCharAux_facts (n % 10) (Nat.mod_lt n (by norm_num))).1

theorem digitVal_digitChar (n : Nat) : digitVal (digitChar n) = n % 10 :=
  (digitCharAux_facts (n % 10) (Nat.mod_lt n (by norm_num))).2.1

theorem digitChar_ne_paren (n : Nat) : digitChar n ≠ '(' :=
  (digitCharAux_facts (n % 10) (Nat.mod_lt n (by norm_num))).2.2.1

theorem digitChar_ne_dot (n : Nat) : digitChar n ≠ '.' :=
  (digitCharAux_facts (n % 10) (Nat.mod_lt n (by norm_num))).2.2.2.1

theorem digitChar_not_ws (n : Nat) : (digitChar n).isWhitespace = false :=
  (digitCharAux_facts (n % 10) (Nat.mod_lt n (by norm_num))).2.2.2.2

/-- `stripParensF` changes nothing when no opening parenthesis occurs. -/
theorem stripParensF_of_no_paren : ∀ (fuel : Nat) (l : List Char),
    (∀ c ∈ l, c ≠ '(') → stripParensF fuel l = l := by
  intro fuel
  induction fuel with
  | zero => intro l _; rfl
  | succ fuel ih =>
    intro l hl
    cases l with
    | nil => rfl
    | cons c rest =>
      have hc : (c == '(') = false :=
        beq_eq_false_iff_ne.mpr (hl c (List.mem_cons_self c rest))
      simp only [stripParensF, hc, Bool.false_eq_true, if_false]
      rw [ih rest (fun d hd => hl d (List.mem_cons_of_mem c hd))]

theorem stripParens_of_no_paren {l : List Char} (h : ∀ c ∈ l, c ≠ '(') :
    stripParens l = l := stripParensF_of_no_paren l.length l h

/-- `dropWhile` changes nothing when the predicate holds nowhere. -/
theorem dropWhile_of_none {l : List Char} {p : Char → Bool}
    (h : ∀ c ∈ l, p c = false) : l.dropWhile p = l := by
  cases l with
  | nil => rfl
  | cons c rest =>
    simp [List.dropWhile, h c (List.mem_cons_self c rest)]

/-- `pyStripChars` changes nothing when no character is whitespace. -/
theorem pyStripChars_of_no_ws {l : List Char}
    (h : ∀ c ∈ l, c.isWhitespace = false) : pyStripChars l = l := by
  unfold pyStripChars
  rw [dropWhile_of_none h]
  rw [dropWhile_of_none (fun c hc => h c (List.mem_reverse.mp hc))]
  exact List.reverse_reverse l

/-- `stripDotsAux` changes nothing when no character is a period. -/
theorem stripDotsAux_of_no_dot : ∀ (l : List Char) (prev : Option Char),
    (∀ c ∈ l, c ≠ '.') → stripDotsAux prev l = l := by
  intro l
  induction l with
  | nil => intro prev _; rfl
  | cons c rest ih =>
    intro prev h
    have hc : (c == '.') = false :=
      beq_eq_false_iff_ne.mpr (h c (List.mem_cons_self c rest))
    simp only [stripDotsAux, hc, Bool.false_and, Bool.false_eq_true, if_false]
    rw [ih (some c) (fun d hd => h d (List.mem_cons_of_mem c hd))]

theorem stripDots_of_no_dot {l : List Char} (h : ∀ c ∈ l, c ≠ '.') :
    stripDots l = l := stripDotsAux_of_no_dot l none h

/-- `strptime("%Y-%m-%d")` inverts `strftime("%Y-%m-%d")` on every valid date. -/
theorem strptimeIso_isoFormat (dt : Date) (h : dateOk dt.y dt.m dt.d = true) :
    strptimeIso (isoFormat dt) = some dt := by
  obtain ⟨y, m, d⟩ := dt
  simp only [dateOk, decide_eq_true_eq] at h
  obtain ⟨hy1, hy2, hm1, hm2, hd1, hd2⟩ := h
  have hdm : daysInMonth y m ≤ 31 := by
    unfold daysInMonth
    split
    · split <;> omega
    · split <;> omega
  have hdig := digitChar_isDigit
  have hdash : (('-' : Char) == '-') = true := rfl
  simp only [strptimeIso, isoFormat]
  simp only [hdig, hdash, Bool.and_true, Bool.true_and, Bool.and_self, if_true]
  have hval := digitVal_digitChar
  simp only [hval]
  have hy : ((y / 1000 % 10 * 10 + y / 100 % 10) * 10 + y / 10 % 10) * 10 + y % 10 = y := by
    omega
  have hm : m / 10 % 10 * 10 + m % 10 = m := by omega
  have hd : d / 10 % 10 * 10 + d % 10 = d := by omega
  simp only [hy, hm, hd]
  have hok : dateOk y m d = true := by
    simp only [dateOk, decide_eq_true_eq]
    exact ⟨hy1, hy2, hm1, hm2, hd1, hd2⟩
  simp [hok]

/-- The characters of `isoFormat` are digits and dashes: no parenthesis, no
period, no whitespace. -/
theorem isoFormat_chars (dt : Date) :
    ∀ c ∈ (isoFormat dt).data, c ≠ '(' ∧ c ≠ '.' ∧ c.isWhitespace = false := by
  intro c hc
  simp only [isoFormat] at hc
  simp only [List.mem_cons, List.not_mem_nil, or_false] at hc
  rcases hc with h | h | h | h | h | h | h | h | h | h <;> subst h <;>
    first
      | exact ⟨digitChar_ne_paren _, digitChar_ne_dot _, digitChar_not_ws _⟩
      | exact ⟨by decide, by decide, by decide⟩

/-- Claim C8: applying the canonicalizer to the ISO `YYYY-MM-DD` form of any
valid calendar date returns that same string unchanged. -/
theorem C8_canonicalize_idempotent (dt : Date) (h : dateOk dt.y dt.m dt.d = true) :
    parse_date_label (isoFormat dt) = isoFormat dt := by
  have hchars := isoFormat_chars dt
  have h1 : stripParens (isoFormat dt).data = (isoFormat dt).data :=
    stripParens_of_no_paren (fun c hc => (hchars c hc).1)
  have h2 : pyStripChars (isoFormat dt).data = (isoFormat dt).data :=
    pyStripChars_of_no_ws (fun c hc => (hchars c hc).2.2)
  have h3 : stripDots (isoFormat dt).data = (isoFormat dt).data :=
    stripDots_of_no_dot (fun c hc => (hchars c hc).2.1)
  have hfz : fuzzyParse (isoFormat dt) = some dt := by
    unfold fuzzyParse
    rw [strptimeIso_isoFormat dt h]
  have hbase : (⟨(isoFormat dt).data⟩ : String) = isoFormat dt := rfl
  simp only [parse_date_label, h1, h2, h3]
  rw [hbase, hfz]

/-- Witness for C8 at the date 2024-03-31. -/
theorem C8_canonicalize_idempotent_witness :
    dateOk 2024 3 31 = true ∧
    parse_date_label (isoFormat ⟨2024, 3, 31⟩) = isoFormat ⟨2024, 3, 31⟩ :=
  ⟨by decide, C8_canonicalize_idempotent ⟨2024, 3, 31⟩ (by decide)⟩

/-! ## Claim C5: the date axis is sorted ascending, failures sink last -/

/-- A string `strptime` accepts denotes a valid calendar date. -/
theorem strptimeIso_dateOk {s : String} {dt : Date}
    (h : strptimeIso s = some dt) : dateOk dt.y dt.m dt.d = true := by
  unfold strptimeIso at h
  split at h
  · split at h
    · dsimp only at h
      split at h
      · rename_i hok
        injection h with h
        subst h
        exact hok
      · exact absurd h (by simp)
    · exact absurd h (by simp)
  · exact absurd h (by simp)

/-- Every valid date's day number is below the failure sentinel of
`parse_dt` (which models `datetime.max`). -/
theorem toDays_lt_sentinel {dt : Date} (h : dateOk dt.y dt.m dt.d = true) :
    toDays dt < 10000000 := by
  obtain ⟨y, m, d⟩ := dt
  simp only [dateOk, decide_eq_true_eq] at h
  obtain ⟨hy1, hy2, hm1, hm2, hd1, hd2⟩ := h
  have hdm : daysInMonth y m ≤ 31 := by
    unfold daysInMonth
    split
    · split <;> omega
    · split <;> omega
  unfold toDays
  simp only
  omega

theorem parse_dt_some {s : String} {dt : Date} (h : strptimeIso s = some dt) :
    parse_dt s = toDays dt := by
  unfold parse_dt
  rw [h]

theorem parse_dt_none {s : String} (h : strptimeIso s = none) :
    parse_dt s = 10000000 := by
  unfold parse_dt
  rw [h]

/-- Claim C5: the merger's date axis is a permutation of the collected
canonical dates, sorted ascending by the chronological key (calendar order,
with parse failures keyed as a maximum date); every date following a parse
failure in the sorted axis is itself a parse failure (failures sink to the
end); and concretely 2024-06-30, 2023-12-31, 2024-03-31 sort to 2023-12-31,
2024-03-31, 2024-06-30 and head the merged sheet in that order. -/
theorem C5_date_axis_sorted :
    (∀ ss : List FilingStatement,
      (sortDates (mergeAll ss).all_dates).Perm (mergeAll ss).all_dates) ∧
    (∀ ss : List FilingStatement,
      List.Pairwise (fun a b => parse_dt a ≤ parse_dt b)
        (sortDates (mergeAll ss).all_dates)) ∧
    (∀ (ss : List FilingStatement) (pre : List String) (b : String) (suf : List String),
      sortDates (mergeAll ss).all_dates = pre ++ b :: suf →
      strptimeIso b = none → ∀ a ∈ suf, strptimeIso a = none) ∧
    sortDates ["2024-06-30", "2023-12-31", "2024-03-31"] =
      ["2023-12-31", "2024-03-31", "2024-06-30"] ∧
    merge_statements_into_master
      [{ filing_key := "H", filing_date := "2024-04-01",
         rows := [{ type := "line", section_name := "", line_label := "A",
                    date_values := [("2024-06-30", "a")] },
                  { type := "line", section_name := "", line_label := "B",
                    date_values := [("2023-12-31", "b")] },
                  { type := "line", section_name := "", line_label := "C",
                    date_values := [("2024-03-31", "c")] }] }] =
      [["Line / Section", "2023-12-31", "2024-03-31", "2024-06-30"],
       ["  A", "", "", "a"], ["  B", "b", "", ""], ["  C", "", "c", ""]] := by
  have hsorted : ∀ l : List String,
      List.Pairwise (fun a b => parse_dt a ≤ parse_dt b) (sortDates l) := by
    intro l
    exact List.sorted_insertionSort dateLe l
  refine ⟨?_, ?_, ?_, by decide, by decide⟩
  · intro ss
    exact List.perm_insertionSort dateLe _
  · intro ss
    exact hsorted _
  · intro ss pre b suf hsplit hb a ha
    have hpw := hsorted (mergeAll ss).all_dates
    rw [hsplit] at hpw
    have hba : parse_dt b ≤ parse_dt a :=
      ((List.pairwise_cons.mp (List.pairwise_append.mp hpw).2.1).1) a ha
    rw [parse_dt_none hb] at hba
    cases hsa : strptimeIso a with
    | none => rfl
    | some dt =>
      rw [parse_dt_some hsa] at hba
      exact absurd (Nat.lt_of_lt_of_le (toDays_lt_sentinel (strptimeIso_dateOk hsa)) hba)
        (lt_irrefl _)

/-! ## Claim C9: degenerate tables and empty statements -/

/-- Claim C9: a raw table that is empty or has fewer than 2 columns segments
to the empty row sequence without error, and merging a statement whose row
sequence is empty leaves the master accumulator (row order, cells and date
axis) unchanged. -/
theorem C9_degenerate_inputs (df : List (List String)) (m : Master)
    (st : FilingStatement) (hdf : df = [] ∨ ncols df < 2) (hrows : st.rows = []) :
    extract_line_items_with_sections df = [] ∧ mergeStatement m st = m := by
  constructor
  · rcases hdf with h | h
    · subst h
      rfl
    · simp [extract_line_items_with_sections, h]
  · simp [mergeStatement, hrows]

/-! ## Claim C3: section headings and section inheritance -/

/-- Helper: the section-heading condition forces a non-empty row (a padded
empty row has a blank first cell, which is neither mostly caps nor
colon-terminated). -/
theorem sectionCond_ne_nil {r : List String}
    (hcap : mostly_caps (pyStrip (r.getD 0 "")) = true ∨
      lastIsColon (pyStrip (r.getD 0 "")).data = true) : r ≠ [] := by
  intro h
  subst h
  simp [List.getD, pyStrip, pyStripChars, mostly_caps, lastIsColon] at hcap

/-- Claim C3, general part: a data row with at most 2 non-blank cells whose
first cell is mostly upper case or ends with a colon is emitted as a
`Section` row named the first cell minus trailing colons, and that name
becomes the current section for all subsequent rows.  Together with the
concrete instance this is the claim's "emit and inherit" behavior. -/
theorem C3_section_heading_step :
    (∀ (date_labels : List String) (row_i : Nat) (cur : String)
      (r : List String) (rest : List (List String)),
      r.countP cellFilled ≤ 2 →
      (mostly_caps (pyStrip (r.getD 0 "")) = true ∨
        lastIsColon (pyStrip (r.getD 0 "")).data = true) →
      processRows date_labels row_i cur (r :: rest) =
        { type := "section",
          section_name := (⟨rstripColonChars (pyStrip (r.getD 0 "")).data⟩ : String),
          line_label := "", date_values := [] }
          :: processRows date_labels (row_i + 1)
            (⟨rstripColonChars (pyStrip (r.getD 0 "")).data⟩ : String) rest) ∧
    extract_line_items_with_sections
      [["", "Dec. 31, 2024", "Dec. 31, 2023"],
       ["CURRENT ASSETS:", "", ""],
       ["Cash", "100", "120"]] =
      [{ type := "section", section_name := "CURRENT ASSETS",
         line_label := "", date_values := [] },
       { type := "line", section_name := "CURRENT ASSETS", line_label := "Cash",
         date_values := [("Dec. 31, 2024", "100"), ("Dec. 31, 2023", "120")] }] := by
  refine ⟨fun date_labels row_i cur r rest hcnt hcap => ?_, by decide⟩
  have hne : r ≠ [] := sectionCond_ne_nil hcap
  have hempty : r.isEmpty = false := by
    cases r with
    | nil => exact absurd rfl hne
    | cons a as => rfl
  have hhead : isSectionHeading r = true := by
    have h1 : decide (r.countP cellFilled ≤ 2) = true := decide_eq_true hcnt
    have h2 : (mostly_caps (pyStrip (r.getD 0 "")) ||
        lastIsColon (pyStrip (r.getD 0 "")).data) = true := by
      rcases hcap with h | h
      · rw [h]
        simp
      · rw [h]
        simp
    unfold isSectionHeading
    rw [h1, h2]
    rfl
  simp only [processRows, hempty, hhead]
  simp

/-! ## Claim C10: last writer wins on each (key, canonical date) cell -/

theorem dictFind_dictInsert {α β : Type} [DecidableEq α] :
    ∀ (d : List (α × β)) (c : α) (v : β) (c' : α),
      dictFind (dictInsert d c v) c' = if c = c' then some v else dictFind d c' := by
  intro d
  induction d with
  | nil => intro c v c'; rfl
  | cons e rest ih =>
    intro c v c'
    obtain ⟨k0, v0⟩ := e
    by_cases hk : k0 = c <;> by_cases hc : c = c'
    · simp [dictInsert, dictFind, hk, hc, hk.trans hc]
    · have h2 : ¬(k0 = c') := fun h => hc (hk.symm.trans h)
      simp [dictInsert, dictFind, hk, hc, h2]
    · have h2 : ¬(k0 = c') := fun h => hk (h.trans hc.symm)
      simp [dictInsert, dictFind, hk, hc, h2, ih]
    · simp [dictInsert, dictFind, hk, hc, ih]

theorem dictFind_append {α β : Type} [DecidableEq α] :
    ∀ (l₁ l₂ : List (α × β)) (k : α),
      dictFind (l₁ ++ l₂) k =
        match dictFind l₁ k with
        | some v => some v
        | none => dictFind l₂ k := by
  intro l₁
  induction l₁ with
  | nil => intro l₂ k; rfl
  | cons e rest ih =>
    intro l₂ k
    obtain ⟨k0, v0⟩ := e
    by_cases hk : k0 = k
    · simp only [List.cons_append, dictFind, if_pos hk]
    · simp only [List.cons_append, dictFind, if_neg hk]
      exact ih l₂ k

theorem dictFind_ensureKey (data : List (MasterKey × List (String × String)))
    (k0 k : MasterKey) :
    dictFind (ensureKey data k0) k =
      match dictFind data k with
      | some d => some d
      | none => if k0 = k then some ([] : List (String × String)) else none := by
  unfold ensureKey
  cases h0 : dictFind data k0 with
  | some d0 =>
    cases hk : dictFind data k with
    | some d => rfl
    | none =>
      by_cases hkk : k0 = k
      · subst hkk
        rw [h0] at hk
        exact absurd hk (by simp)
      · simp [hkk]
  | none =>
    rw [dictFind_append]
    cases hk : dictFind data k with
    | some d => rfl
    | none => rfl

theorem dictFind_ensureKey_self (data : List (MasterKey × List (String × String)))
    (k0 : MasterKey) :
    dictFind (ensureKey data k0) k0 = some ((dictFind data k0).getD []) := by
  rw [dictFind_ensureKey]
  cases h : dictFind data k0 with
  | some d => rfl
  | none => rw [if_pos rfl]; rfl

theorem dictFind_dictUpdate :
    ∀ (data : List (MasterKey × List (String × String))) (k0 : MasterKey)
      (c v : String) (k : MasterKey),
      dictFind (dictUpdate data k0 c v) k =
        if k0 = k then
          match dictFind data k0 with
          | some d0 => some (dictInsert d0 c v)
          | none => some [(c, v)]
        else dictFind data k := by
  intro data
  induction data with
  | nil =>
    intro k0 c v k
    by_cases hk : k0 = k <;> simp [dictUpdate, dictFind, hk]
  | cons e rest ih =>
    intro k0 c v k
    obtain ⟨ke, de⟩ := e
    by_cases he : ke = k0 <;> by_cases hk : ke = k
    · have hk0 : k0 = k := he.symm.trans hk
      simp [dictUpdate, dictFind, he, hk, hk0]
    · have hk0 : ¬(k0 = k) := fun h => hk (he.trans h)
      simp [dictUpdate, dictFind, he, hk, hk0]
    · have hk0 : ¬(k0 = k) := fun h => he (hk.trans h.symm)
      have he' : ¬(k = k0) := fun h => he (hk.trans h)
      simp [dictUpdate, dictFind, he, hk, hk0, he']
    · simp [dictUpdate, dictFind, he, hk, ih]

theorem rowWrite_key {fd : String} {row : Row} {w : MasterKey × String × String}
    (h : rowWrite fd row = some w) : w.1 = rowKey row := by
  unfold rowWrite at h
  cases hs : select_closest_date row.date_values fd with
  | none => rw [hs] at h; exact absurd h (by simp)
  | some rc =>
    obtain ⟨raw, canon⟩ := rc
    rw [hs] at h
    injection h with h
    rw [← h]

/-- Effect of one merge iteration on one cell: the row's write (if its key
and canonical date both match) overwrites, anything else is untouched. -/
theorem lookupCell_mergeRow (fd : String) (m : Master) (row : Row)
    (k : MasterKey) (c : String) :
    lookupCell (mergeRow fd m row) k c =
      match rowWrite fd row with
      | some w => if w.1 = k ∧ w.2.1 = c then some w.2.2 else lookupCell m k c
      | none => lookupCell m k c := by
  cases hw : rowWrite fd row with
  | none =>
    have hdata : (mergeRow fd m row).master_data = ensureKey m.master_data (rowKey row) := by
      unfold mergeRow
      rw [hw]
    unfold lookupCell
    rw [hdata, dictFind_ensureKey]
    cases hfind : dictFind m.master_data k with
    | some d => rfl
    | none =>
      by_cases hk : rowKey row = k
      · rw [if_pos hk]
        rfl
      · rw [if_neg hk]
  | some w =>
    have hdata : (mergeRow fd m row).master_data =
        dictUpdate (ensureKey m.master_data (rowKey row)) (rowKey row) w.2.1 w.2.2 := by
      unfold mergeRow
      rw [hw]
    have hwk : w.1 = rowKey row := rowWrite_key hw
    unfold lookupCell
    rw [hdata, dictFind_dictUpdate]
    by_cases hk : rowKey row = k
    · rw [if_pos hk, dictFind_ensureKey_self]
      dsimp only
      rw [dictFind_dictInsert]
      by_cases hc : w.2.1 = c
      · rw [if_pos hc, if_pos ⟨hwk.trans hk, hc⟩]
      · rw [if_neg hc, if_neg (fun hcon => hc hcon.2)]
        rw [← hk]
        cases hfind : dictFind m.master_data (rowKey row) with
        | some d => rfl
        | none => rfl
    · rw [if_neg hk, dictFind_ensureKey]
      have hcond : ¬(w.1 = k ∧ w.2.1 = c) := fun hcon => hk (hwk.symm.trans hcon.1)
      dsimp only
      rw [if_neg hcond]
      cases hfind : dictFind m.master_data k with
      | some d => rfl
      | none =>
        rw [if_neg hk]

theorem lastWrite_append (k : MasterKey) (c : String) :
    ∀ ws₁ ws₂ : List (MasterKey × String × String),
      lastWrite (ws₁ ++ ws₂) k c =
        match lastWrite ws₂ k c with
        | some v => some v
        | none => lastWrite ws₁ k c := by
  intro ws₁
  induction ws₁ with
  | nil =>
    intro ws₂
    rw [List.nil_append]
    cases h : lastWrite ws₂ k c with
    | some v => rfl
    | none => rfl
  | cons w rest ih =>
    intro ws₂
    have hstep : lastWrite ((w :: rest) ++ ws₂) k c =
        match lastWrite (rest ++ ws₂) k c with
        | some v => some v
        | none => if w.1 = k ∧ w.2.1 = c then some w.2.2 else none := rfl
    rw [hstep, ih ws₂]
    cases h : lastWrite ws₂ k c with
    | some v => rfl
    | none => rfl

/-- Folding a statement's rows: a cell holds the last write of those rows,
or its previous content when none of them writes it. -/
theorem lookupCell_foldRows (fd : String) :
    ∀ (rows : List Row) (m : Master) (k : MasterKey) (c : String),
      lookupCell (rows.foldl (mergeRow fd) m) k c =
        match lastWrite (rows.filterMap (rowWrite fd)) k c with
        | some v => some v
        | none => lookupCell m k c := by
  intro rows
  induction rows with
  | nil =>
    intro m k c
    cases h : lastWrite ([].filterMap (rowWrite fd)) k c with
    | some v => exact absurd h (by simp [lastWrite])
    | none => rfl
  | cons row rest ih =>
    intro m k c
    rw [List.foldl_cons, ih]
    cases hw : rowWrite fd row with
    | none =>
      rw [List.filterMap_cons_none hw]
      cases hlast : lastWrite (rest.filterMap (rowWrite fd)) k c with
      | some v => rfl
      | none =>
        rw [lookupCell_mergeRow, hw]
    | some w =>
      rw [List.filterMap_cons_some hw]
      cases hlast : lastWrite (rest.filterMap (rowWrite fd)) k c with
      | some v =>
        simp only [lastWrite, hlast]
      | none =>
        simp only [lastWrite, hlast]
        rw [lookupCell_mergeRow, hw]
        dsimp only
        by_cases hcond : w.1 = k ∧ w.2.1 = c
        · rw [if_pos hcond, if_pos hcond]
        · rw [if_neg hcond, if_neg hcond]

/-- Folding whole statements: a cell holds the last write of all statements
processed so far, or its previous content. -/
theorem lookupCell_foldStatements :
    ∀ (ss : List FilingStatement) (m : Master) (k : MasterKey) (c : String),
      lookupCell (ss.foldl mergeStatement m) k c =
        match lastWrite (allWrites ss) k c with
        | some v => some v
        | none => lookupCell m k c := by
  intro ss
  induction ss with
  | nil =>
    intro m k c
    rfl
  | cons st rest ih =>
    intro m k c
    have h1 : (st :: rest).foldl mergeStatement m =
        rest.foldl mergeStatement (mergeStatement m st) := rfl
    have h2 : allWrites (st :: rest) = stWrites st ++ allWrites rest := by
      unfold allWrites
      rw [List.flatMap_cons]
    rw [h1, ih, h2, lastWrite_append]
    cases hrest : lastWrite (allWrites rest) k c with
    | some v => rfl
    | none =>
      unfold mergeStatement stWrites
      rw [lookupCell_foldRows]

/-! ### Keys of the per-key value dictionaries stay distinct -/

theorem dictInsert_keys_mem {α β : Type} [DecidableEq α] :
    ∀ (d : List (α × β)) (c : α) (v : β) (x : α),
      x ∈ (dictInsert d c v).map Prod.fst ↔ x ∈ d.map Prod.fst ∨ x = c := by
  intro d
  induction d with
  | nil => intro c v x; simp [dictInsert]
  | cons e rest ih =>
    intro c v x
    obtain ⟨k0, v0⟩ := e
    by_cases hk : k0 = c
    · subst hk
      simp [dictInsert]
      tauto
    · simp [dictInsert, hk, ih]
      tauto

theorem dictInsert_keys_nodup {α β : Type} [DecidableEq α] :
    ∀ (d : List (α × β)) (c : α) (v : β),
      (d.map Prod.fst).Nodup → ((dictInsert d c v).map Prod.fst).Nodup := by
  intro d
  induction d with
  | nil => intro c v _; simp [dictInsert]
  | cons e rest ih =>
    intro c v hnd
    obtain ⟨k0, v0⟩ := e
    simp only [List.map_cons, List.nodup_cons] at hnd
    by_cases hk : k0 = c
    · subst hk
      have hins : dictInsert ((k0, v0) :: rest) k0 v = (k0, v) :: rest := by
        simp [dictInsert]
      rw [hins]
      simp only [List.map_cons, List.nodup_cons]
      exact hnd
    · simp only [dictInsert, if_neg hk, List.map_cons, List.nodup_cons]
      refine ⟨?_, ih c v hnd.2⟩
      intro hmem
      rcases (dictInsert_keys_mem rest c v k0).mp hmem with h | h
      · exact hnd.1 h
      · exact hk h

theorem cellKeysNodup_ensureKey {data : List (MasterKey × List (String × String))}
    (h : CellKeysNodup data) (k0 : MasterKey) : CellKeysNodup (ensureKey data k0) := by
  intro k d hfind
  rw [dictFind_ensureKey] at hfind
  cases hd : dictFind data k with
  | some d' =>
    rw [hd] at hfind
    injection hfind with hfind
    subst hfind
    exact h k d' hd
  | none =>
    rw [hd] at hfind
    by_cases hk : k0 = k
    · rw [if_pos hk] at hfind
      injection hfind with hfind
      subst hfind
      simp
    · rw [if_neg hk] at hfind
      exact absurd hfind (by simp)

theorem cellKeysNodup_dictUpdate {data : List (MasterKey × List (String × String))}
    (h : CellKeysNodup data) (k0 : MasterKey) (c v : String) :
    CellKeysNodup (dictUpdate data k0 c v) := by
  intro k d hfind
  rw [dictFind_dictUpdate] at hfind
  by_cases hk : k0 = k
  · rw [if_pos hk] at hfind
    cases hd : dictFind data k0 with
    | some d0 =>
      rw [hd] at hfind
      injection hfind with hfind
      subst hfind
      exact dictInsert_keys_nodup d0 c v (h k0 d0 hd)
    | none =>
      rw [hd] at hfind
      injection hfind with hfind
      subst hfind
      simp
  · rw [if_neg hk] at hfind
    exact h k d hfind

theorem cellKeysNodup_mergeRow {m : Master} (h : CellKeysNodup m.master_data)
    (fd : String) (row : Row) : CellKeysNodup (mergeRow fd m row).master_data := by
  cases hw : rowWrite fd row with
  | none =>
    have hdata : (mergeRow fd m row).master_data = ensureKey m.master_data (rowKey row) := by
      unfold mergeRow
      rw [hw]
    rw [hdata]
    exact cellKeysNodup_ensureKey h (rowKey row)
  | some w =>
    have hdata : (mergeRow fd m row).master_data =
        dictUpdate (ensureKey m.master_data (rowKey row)) (rowKey row) w.2.1 w.2.2 := by
      unfold mergeRow
      rw [hw]
    rw [hdata]
    exact cellKeysNodup_dictUpdate (cellKeysNodup_ensureKey h (rowKey row)) _ _ _

theorem cellKeysNodup_foldRows (fd : String) :
    ∀ (rows : List Row) (m : Master), CellKeysNodup m.master_data →
      CellKeysNodup (rows.foldl (mergeRow fd) m).master_data := by
  intro rows
  induction rows with
  | nil => intro m h; exact h
  | cons row rest ih =>
    intro m h
    exact ih (mergeRow fd m row) (cellKeysNodup_mergeRow h fd row)

theorem cellKeysNodup_foldStatements :
    ∀ (ss : List FilingStatement) (m : Master), CellKeysNodup m.master_data →
      CellKeysNodup (ss.foldl mergeStatement m).master_data := by
  intro ss
  induction ss with
  | nil => intro m h; exact h
  | cons st rest ih =>
    intro m h
    exact ih (mergeStatement m st) (cellKeysNodup_foldRows st.filing_date st.rows m h)

/-- Claim C10: each (key, canonical date) pair of the merged master maps to
at most one value — the per-key dictionaries have pairwise-distinct date
keys — and the value held is exactly that of the last write performed for
that pair across all rows of all statements, in processing order (last
writer wins).  Concretely, two rows selecting the same canonical date
2024-03-31 for the same key leave the later row's value. -/
theorem C10_last_writer_wins :
    (∀ (ss : List FilingStatement) (k : MasterKey) (c : String),
      lookupCell (mergeAll ss) k c = lastWrite (allWrites ss) k c) ∧
    (∀ (ss : List FilingStatement) (k : MasterKey) (d : List (String × String)),
      dictFind (mergeAll ss).master_data k = some d → (d.map Prod.fst).Nodup) ∧
    lookupCell
      (mergeAll
        [{ filing_key := "G1", filing_date := "2024-04-01",
           rows := [{ type := "line", section_name := "ASSETS", line_label := "Cash",
                      date_values := [("2024-03-31", "old")] }] },
         { filing_key := "G2", filing_date := "2024-04-01",
           rows := [{ type := "line", section_name := "ASSETS", line_label := "Cash",
                      date_values := [("Mar. 31, 2024", "new")] }] }])
      ("line", "ASSETS", "Cash") "2024-03-31" = some "new" := by
  refine ⟨?_, ?_, by decide⟩
  · intro ss k c
    unfold mergeAll
    rw [lookupCell_foldStatements]
    cases h : lastWrite (allWrites ss) k c with
    | some v => rfl
    | none => rfl
  · intro ss k d hfind
    exact cellKeysNodup_foldStatements ss emptyMaster (fun k' d' h => by
      exact absurd h (by simp [emptyMaster, dictFind])) k d hfind

/-- Witness for C9 at a 1-row, 1-column table and an empty statement folded
into a non-trivial master accumulator. -/
theorem C9_degenerate_inputs_witness :
    extract_line_items_with_sections [["x"]] = [] ∧
    mergeStatement
      { master_order := [("line", "A", "B")],
        master_data := [(("line", "A", "B"), [("2024-03-31", "5")])],
        all_dates := ["2024-03-31"] }
      { filing_key := "K", filing_date := "2024-04-01", rows := [] } =
      { master_order := [("line", "A", "B")],
        master_data := [(("line", "A", "B"), [("2024-03-31", "5")])],
        all_dates := ["2024-03-31"] } :=
  C9_degenerate_inputs [["x"]] _ _ (Or.inr (by decide)) rfl

end EdgarBS
